import Mathlib

/-!
Verification of the SUMMARY.md updater
(`plugins/market-research-idea-validation/hooks/update-summary.py`).

The script is embedded shallowly: file contents are `List Char`, lines are
`List Char`, and every function below is a direct translation of the
corresponding Python function.  Filesystem effects are modelled by explicit
state passing at the end of the file.
-/

set_option autoImplicit false

/-! ### Lines: `content.split('\n')` and `'\n'.join(lines)` -/

/-- Python `content.split('\n')` on a character list.  `splitLines [] = [[]]`,
matching Python where `"".split('\n') == [""]`. -/
def splitLines : List Char → List (List Char)
  | [] => [[]]
  | c :: rest =>
    if c = '\n' then [] :: splitLines rest
    else
      match splitLines rest with
      | [] => [[c]]
      | l :: ls => (c :: l) :: ls

/-- Python `'\n'.join(lines)` on character lists. -/
def joinLines : List (List Char) → List Char
  | [] => []
  | l :: ls =>
    match ls with
    | [] => l
    | _ :: _ => l ++ '\n' :: joinLines ls

theorem splitLines_ne_nil (cs : List Char) : splitLines cs ≠ [] := by
  induction cs with
  | nil => simp [splitLines]
  | cons c rest ih =>
    simp only [splitLines]
    split
    · simp
    · cases h : splitLines rest <;> simp

theorem joinLines_cons (l : List Char) (ls : List (List Char)) (h : ls ≠ []) :
    joinLines (l :: ls) = l ++ '\n' :: joinLines ls := by
  cases ls with
  | nil => exact absurd rfl h
  | cons _ _ => rfl

theorem joinLines_splitLines (cs : List Char) : joinLines (splitLines cs) = cs := by
  induction cs with
  | nil => rfl
  | cons c rest ih =>
    simp only [splitLines]
    by_cases hc : c = '\n'
    · subst hc
      rw [if_pos rfl]
      rw [joinLines_cons [] (splitLines rest) (splitLines_ne_nil rest)]
      simp [ih]
    · simp only [if_neg hc]
      cases h : splitLines rest with
      | nil => exact absurd h (splitLines_ne_nil rest)
      | cons l ls =>
        rw [h] at ih
        cases ls with
        | nil => simpa [joinLines] using ih
        | cons l2 ls2 =>
          rw [joinLines_cons (c :: l) (l2 :: ls2) (by simp),
              joinLines_cons l (l2 :: ls2) (by simp)] at *
          simpa using ih

/-! ### Python string helpers -/

/-- The characters removed by Python `str.strip()` (ASCII range). -/
def isPyWhitespace (c : Char) : Bool :=
  c == ' ' || c == '\t' || c == '\n' || c == '\r' || c == '\x0b' || c == '\x0c'

/-- Python `line.strip()`. -/
def pyStrip (s : List Char) : List Char :=
  ((s.dropWhile isPyWhitespace).reverse.dropWhile isPyWhitespace).reverse

/-- Substring containment, Python `pat in line`. -/
def hasSub (pat : List Char) : List Char → Bool
  | [] => pat.isPrefixOf []
  | c :: rest => pat.isPrefixOf (c :: rest) || hasSub pat rest

/-- Python `str.title()` for ASCII text: a letter that follows a cased
character is lowercased, any other letter is uppercased. -/
def pyTitleGo : Bool → List Char → List Char
  | _, [] => []
  | prevCased, c :: rest =>
    if c.isAlpha then
      (if prevCased then c.toLower else c.toUpper) :: pyTitleGo true rest
    else
      c :: pyTitleGo false rest

def pyTitle (s : List Char) : List Char := pyTitleGo false s

/-! ### `filename_to_title` and `create_entry` -/

/-- `PurePath(p).name`: the component after the last slash. -/
def pathName (filepath : List Char) : List Char :=
  (filepath.reverse.takeWhile (fun c => c != '/')).reverse

/-- `PurePath(p).stem`: the name with its suffix removed.  pathlib keeps the
whole name when the last dot is at index 0 or at the very end. -/
def pathStem (filepath : List Char) : List Char :=
  let name := pathName filepath
  let k := name.reverse.findIdx (fun c => c == '.')
  if k = name.length then name
  else
    let i := name.length - 1 - k
    if 0 < i ∧ i < name.length - 1 then name.take i else name

/-- `filename_to_title`: stem, then `-`/`_` → space, then `str.title()`. -/
def filename_to_title (filepath : List Char) : List Char :=
  pyTitle ((pathStem filepath).map (fun c => if c = '-' ∨ c = '_' then ' ' else c))

/-- `create_entry`: the indent, then an asterisk, the bracketed title and the
parenthesized path, with two spaces per indent level. -/
def create_entry (filepath : List Char) (indent_level : Nat) : List Char :=
  List.replicate (2 * indent_level) ' ' ++ "* [".data ++ filename_to_title filepath
    ++ "](".data ++ filepath ++ ")".data

/-! ### `extract_existing_links`: the regex `\[.*?\]\((.*?\.md)\)`

`re.finditer` with non-greedy groups: at each position, the shortest label
(`.*?` cannot cross a newline) followed by `](`, then the shortest path ending
in `.md` followed by `)`.  Scanning resumes after each match. -/

/-- Matcher for the tail `(.*?\.md)\)` of the pattern: the shortest split of
the input into non-newline characters followed by `.md)`.  Returns the
captured group (ending in `.md`) and the rest of the input. -/
def pathSearch : List Char → Option (List Char × List Char)
  | [] => none
  | c :: rest =>
    if (c :: rest).take 4 = ['.', 'm', 'd', ')'] then
      some (['.', 'm', 'd'], rest.drop 3)
    else if c = '\n' then none
    else (pathSearch rest).map (fun pr => (c :: pr.1, pr.2))

/-- Matcher for `.*?\]\((.*?\.md)\)` (everything after the opening `[`): the
non-greedy label backtracks past any `](` whose path part fails. -/
def labelSearch : List Char → Option (List Char × List Char)
  | [] => none
  | c :: rest =>
    match (if (c :: rest).take 2 = [']', '('] then pathSearch (rest.drop 1) else none) with
    | some pr => some pr
    | none => if c = '\n' then none else labelSearch rest

/-- One `finditer` pass: at each `[`, attempt a match; on success record the
captured path and resume after the match.  `fuel` bounds the recursion and is
instantiated with the input length. -/
def findMatchesAux : Nat → List Char → List (List Char)
  | 0, _ => []
  | _ + 1, [] => []
  | fuel + 1, c :: rest =>
    if c = '[' then
      match labelSearch rest with
      | some (p, rest2) => p :: findMatchesAux fuel rest2
      | none => findMatchesAux fuel rest
    else findMatchesAux fuel rest

/-- `extract_existing_links`: all paths captured by `\[.*?\]\((.*?\.md)\)`
over the whole content, in match order (used only through membership, matching
the Python `set`). -/
def extract_existing_links (content : List Char) : List (List Char) :=
  findMatchesAux content.length content

/-! ### `parse_summary_structure` -/

def SECTION_MM : List Char := "## M+M".data
def SECTION_CLAUDE : List Char := "## Claude code stuff".data

inductive SectionTag
  | before_mm | mm_section | between_sections | claude_section | after_claude
deriving DecidableEq, Repr

structure SummaryStructure where
  before_mm : List (List Char)
  mm_section : List (List Char)
  between_sections : List (List Char)
  claude_section : List (List Char)
  after_claude : List (List Char)
deriving DecidableEq, Repr

def SummaryStructure.empty : SummaryStructure := ⟨[], [], [], [], []⟩

/-- Prepend a line to the bucket named by `tag` (the recursion below walks the
line list front to back, so prepending preserves the append order of the
Python loop). -/
def consFront (st : SummaryStructure) (tag : SectionTag) (line : List Char) :
    SummaryStructure :=
  match tag with
  | .before_mm => { st with before_mm := line :: st.before_mm }
  | .mm_section => { st with mm_section := line :: st.mm_section }
  | .between_sections => { st with between_sections := line :: st.between_sections }
  | .claude_section => { st with claude_section := line :: st.claude_section }
  | .after_claude => { st with after_claude := line :: st.after_claude }

/-- The section-transition logic of the Python loop body, acting on the
`(current_section, mm_found, claude_found)` state. -/
def nextState (tag : SectionTag) (mm_found claude_found : Bool) (line : List Char) :
    SectionTag × Bool × Bool :=
  let stripped := pyStrip line
  if stripped = SECTION_MM then (.mm_section, true, claude_found)
  else if stripped = SECTION_CLAUDE then
    (if mm_found then .claude_section else .before_mm, mm_found, true)
  else if tag = .mm_section ∧ "##".data.isPrefixOf stripped then
    (.between_sections, mm_found, claude_found)
  else if tag = .claude_section ∧ "##".data.isPrefixOf stripped then
    (.after_claude, mm_found, claude_found)
  else (tag, mm_found, claude_found)

def parseFrom (tag : SectionTag) (mm_found claude_found : Bool) :
    List (List Char) → SummaryStructure
  | [] => .empty
  | line :: rest =>
    let s := nextState tag mm_found claude_found line
    consFront (parseFrom s.1 s.2.1 s.2.2 rest) s.1 line

def parse_summary_structure (lines : List (List Char)) : SummaryStructure :=
  parseFrom .before_mm false false lines

/-- The five buckets concatenated in their fixed order. -/
def concatSegs (st : SummaryStructure) : List (List Char) :=
  st.before_mm ++ st.mm_section ++ st.between_sections
    ++ st.claude_section ++ st.after_claude

/-! ### `insert_research_output_sections` -/

def researchHeaderLine : List Char := "  * [Research]".data
def outputHeaderLine : List Char := "  * [Output]".data

/-- The Python loop `for i, line in enumerate(mm_section_lines): if i > 0 and
line.strip().startswith('##'): insertion_index = i; break`, defaulting to the
length. -/
def insertion_index (mml : List (List Char)) : Nat :=
  match mml with
  | [] => 0
  | _ :: rest => 1 + rest.findIdx (fun l => "##".data.isPrefixOf (pyStrip l))

/-- The Research block appended at the insertion point: nothing when every
research file is already linked, otherwise an optional synthetic group header
(suppressed when some M+M line contains `* [Research]`) followed by one entry
per new file. -/
def research_part (mml : List (List Char))
    (research_files existing_files : List (List Char)) : List (List Char) :=
  let new_research := research_files.filter (fun f => !decide (f ∈ existing_files))
  if new_research = [] then []
  else
    (if mml.any (fun l => hasSub "* [Research]".data l) then []
     else [researchHeaderLine]) ++ new_research.map (fun f => create_entry f 2)

/-- The Output block, symmetric to `research_part`. -/
def output_part (mml : List (List Char))
    (output_files existing_files : List (List Char)) : List (List Char) :=
  let new_output := output_files.filter (fun f => !decide (f ∈ existing_files))
  if new_output = [] then []
  else
    (if mml.any (fun l => hasSub "* [Output]".data l) then []
     else [outputHeaderLine]) ++ new_output.map (fun f => create_entry f 2)

/-- `insert_research_output_sections`: everything before and including the M+M
header, the M+M body up to the first later `##` line, the new Research and
Output blocks, the rest of the M+M body (only when a `##` line was hit), then
the three trailing buckets. -/
def insert_research_output_sections (st : SummaryStructure)
    (research_files output_files existing_files : List (List Char)) :
    List (List Char) :=
  let mml := st.mm_section
  let idx := insertion_index mml
  st.before_mm ++ mml.take idx
    ++ research_part mml research_files existing_files
    ++ output_part mml output_files existing_files
    ++ (if idx < mml.length then mml.drop idx else [])
    ++ st.between_sections ++ st.claude_section ++ st.after_claude

/-! ### `update_summary`: the written content and the filesystem model -/

/-- The content written by a successful non-dry-run update: the reassembled
lines joined with newlines, with one newline appended when the join does not
already end in one. -/
def update_content (content : List Char)
    (research_files output_files : List (List Char)) : List Char :=
  let existing_files := extract_existing_links content
  let st := parse_summary_structure (splitLines content)
  let updated := joinLines
    (insert_research_output_sections st research_files output_files existing_files)
  if updated.getLast? = some '\n' then updated else updated ++ ['\n']

/-- The files touched by one run: the outline, its `.bak` sibling and its
`.tmp` sibling (`none` = absent). -/
structure FS where
  summary : Option (List Char)
  backup : Option (List Char)
  temp : Option (List Char)
deriving DecidableEq, Repr

/-- `update_summary(dry_run=False)` over the filesystem model.  `tempWriteOk`
stands for the try-block around the temp-file write and rename: when it is
`false` the except-branch runs (report, unlink the temp file, return `False`);
when it is `true` the temp file is written and renamed onto the outline.
Returns the Python boolean result together with the final filesystem. -/
def update_summary (fs : FS) (research_files output_files : List (List Char))
    (tempWriteOk : Bool) : Bool × FS :=
  match fs.summary with
  | none => (false, fs)
  | some content =>
    if research_files = [] ∧ output_files = [] then (true, fs)
    else
      let existing_files := extract_existing_links content
      let new_research := research_files.filter (fun f => !decide (f ∈ existing_files))
      let new_output := output_files.filter (fun f => !decide (f ∈ existing_files))
      if new_research = [] ∧ new_output = [] then (true, fs)
      else
        let fs1 : FS := { fs with backup := some content }
        if tempWriteOk then
          (true, { fs1 with
                    summary := some (update_content content research_files output_files),
                    temp := none })
        else
          (false, { fs1 with temp := none })

/-- `main()`: exit status 0 when `update_summary` returns `True`, else 1. -/
def main_exit (fs : FS) (research_files output_files : List (List Char))
    (tempWriteOk : Bool) : Nat :=
  if (update_summary fs research_files output_files tempWriteOk).1 then 0 else 1

/-! ### `find_markdown_files` -/

/-- Lexicographic order on strings by code point, Python `<=` used by
`sorted`. -/
def strLe : List Char → List Char → Bool
  | [], _ => true
  | _ :: _, [] => false
  | a :: as, b :: bs => if a = b then strLe as bs else decide (a < b)

/-- `find_markdown_files`: the directory is `none` when missing (→ `[]`),
otherwise the list of its entry names; the result is the sorted list of
`dirRel/name` for every entry matching `*.md`. -/
def find_markdown_files (dir : Option (List (List Char))) (dirRel : List Char) :
    List (List Char) :=
  match dir with
  | none => []
  | some names =>
    (((names.filter (fun n => ".md".data.isSuffixOf n)).map
        (fun n => dirRel ++ '/' :: n)).mergeSort strLe)

/-! ### Lemmas about the structural parse -/

theorem consFront_concatSegs_mem (st : SummaryStructure) (tag : SectionTag)
    (line l : List Char) (h : l = line ∨ l ∈ concatSegs st) :
    l ∈ concatSegs (consFront st tag line) := by
  cases tag <;>
    simp only [consFront, concatSegs, List.mem_append, List.mem_cons] at * <;>
    tauto

/-- Every input line lands in some bucket. -/
theorem mem_concatSegs_parseFrom (lines : List (List Char)) :
    ∀ (tag : SectionTag) (mm cl : Bool) (l : List Char), l ∈ lines →
      l ∈ concatSegs (parseFrom tag mm cl lines) := by
  induction lines with
  | nil => intro _ _ _ _ h; simp at h
  | cons line rest ih =>
    intro tag mm cl l hl
    rcases List.mem_cons.mp hl with h | h
    · exact consFront_concatSegs_mem _ _ _ _ (Or.inl h)
    · exact consFront_concatSegs_mem _ _ _ _
        (Or.inr (ih _ _ _ l h))

/-- When no line strips to the M+M marker, everything is filed before the
section and the other four buckets stay empty. -/
theorem parseFrom_no_mm (lines : List (List Char)) :
    ∀ (cl : Bool), (∀ l ∈ lines, pyStrip l ≠ SECTION_MM) →
      parseFrom .before_mm false cl lines = ⟨lines, [], [], [], []⟩ := by
  induction lines with
  | nil => intro cl _; rfl
  | cons line rest ih =>
    intro cl h
    have hA : pyStrip line ≠ SECTION_MM := h line (by simp)
    have hrest : ∀ l ∈ rest, pyStrip l ≠ SECTION_MM := fun l hl => h l (by simp [hl])
    by_cases hB : pyStrip line = SECTION_CLAUDE
    · simp only [parseFrom, nextState, if_neg hA, if_pos hB,
        if_neg (by simp : ¬(false = true))]
      rw [ih true hrest]
      rfl
    · simp only [parseFrom, nextState, if_neg hA, if_neg hB]
      have h1 : ¬(SectionTag.before_mm = SectionTag.mm_section
          ∧ "##".data.isPrefixOf (pyStrip line) = true) := by simp
      have h2 : ¬(SectionTag.before_mm = SectionTag.claude_section
          ∧ "##".data.isPrefixOf (pyStrip line) = true) := by simp
      rw [if_neg h1, if_neg h2]
      rw [ih cl hrest]
      rfl

theorem nextState_mm_found (tag : SectionTag) (cl : Bool) (line : List Char) :
    (nextState tag true cl line).2.1 = true := by
  simp only [nextState]
  split_ifs <;> rfl

theorem nextState_ne_before (tag : SectionTag) (cl : Bool) (line : List Char)
    (h : tag ≠ .before_mm) : (nextState tag true cl line).1 ≠ .before_mm := by
  simp only [nextState]
  split_ifs <;> simp_all

theorem before_mm_parseFrom_of_found :
    ∀ (lines : List (List Char)) (tag : SectionTag) (cl : Bool),
      tag ≠ .before_mm → (parseFrom tag true cl lines).before_mm = [] := by
  intro lines
  induction lines with
  | nil => intro tag cl _; rfl
  | cons line rest ih =>
    intro tag cl htag
    have h1 := nextState_mm_found tag cl line
    have h2 := nextState_ne_before tag cl line htag
    simp only [parseFrom]
    rcases hs : nextState tag true cl line with ⟨tag', mm', cl'⟩
    rw [hs] at h1 h2
    simp only at h1 h2
    subst h1
    have := ih tag' cl' h2
    cases tag' with
    | before_mm => exact absurd rfl h2
    | mm_section => simpa [consFront] using this
    | between_sections => simpa [consFront] using this
    | claude_section => simpa [consFront] using this
    | after_claude => simpa [consFront] using this

/-- The before-M+M bucket is exactly the prefix of lines up to (excluding) the
first line that strips to the M+M marker. -/
theorem before_mm_parseFrom :
    ∀ (lines : List (List Char)) (cl : Bool),
      (parseFrom .before_mm false cl lines).before_mm
        = lines.takeWhile (fun l => !decide (pyStrip l = SECTION_MM)) := by
  intro lines
  induction lines with
  | nil => intro cl; rfl
  | cons line rest ih =>
    intro cl
    by_cases hA : pyStrip line = SECTION_MM
    · simp only [parseFrom, nextState, if_pos hA]
      rw [List.takeWhile_cons]
      rw [show (!decide (pyStrip line = SECTION_MM)) = false by simp [hA]]
      simp only [Bool.false_eq_true, if_false]
      simpa [consFront] using
        before_mm_parseFrom_of_found rest .mm_section cl (by simp)
    · rw [List.takeWhile_cons]
      rw [show (!decide (pyStrip line = SECTION_MM)) = true by simp [hA]]
      simp only [if_true]
      by_cases hB : pyStrip line = SECTION_CLAUDE
      · simp only [parseFrom, nextState, if_neg hA, if_pos hB,
          if_neg (by simp : ¬(false = true))]
        simpa [consFront] using ih true
      · simp only [parseFrom, nextState, if_neg hA, if_neg hB]
        rw [if_neg (by simp), if_neg (by simp)]
        simpa [consFront] using ih cl

theorem claude_parseFrom_no_B :
    ∀ (lines : List (List Char)) (tag : SectionTag) (mm cl : Bool),
      tag ≠ .claude_section → (∀ l ∈ lines, pyStrip l ≠ SECTION_CLAUDE) →
      (parseFrom tag mm cl lines).claude_section = [] := by
  intro lines
  induction lines with
  | nil => intro tag mm cl _ _; rfl
  | cons line rest ih =>
    intro tag mm cl htag h
    have hB : pyStrip line ≠ SECTION_CLAUDE := h line (by simp)
    have hrest : ∀ l ∈ rest, pyStrip l ≠ SECTION_CLAUDE :=
      fun l hl => h l (by simp [hl])
    have hnext : (nextState tag mm cl line).1 ≠ .claude_section := by
      simp only [nextState]
      split_ifs <;> simp_all
    simp only [parseFrom]
    rcases hs : nextState tag mm cl line with ⟨tag', mm', cl'⟩
    rw [hs] at hnext
    simp only at hnext
    have := ih tag' mm' cl' hnext hrest
    cases tag' with
    | claude_section => exact absurd rfl hnext
    | before_mm => simpa [consFront] using this
    | mm_section => simpa [consFront] using this
    | between_sections => simpa [consFront] using this
    | after_claude => simpa [consFront] using this

/-- If every M+M-marker line comes after the split and every Claude-marker
line comes before it, the Claude bucket stays empty: the Claude section is
only ever opened by a Claude marker that follows an M+M marker. -/
theorem claude_parseFrom_B_before_A :
    ∀ (pre post : List (List Char)) (cl : Bool),
      (∀ l ∈ pre, pyStrip l ≠ SECTION_MM) →
      (∀ l ∈ post, pyStrip l ≠ SECTION_CLAUDE) →
      (parseFrom .before_mm false cl (pre ++ post)).claude_section = [] := by
  intro pre
  induction pre with
  | nil =>
    intro post cl _ hpost
    exact claude_parseFrom_no_B post .before_mm false cl (by simp) hpost
  | cons line pre' ih =>
    intro post cl hpre hpost
    have hA : pyStrip line ≠ SECTION_MM := hpre line (by simp)
    have hpre' : ∀ l ∈ pre', pyStrip l ≠ SECTION_MM :=
      fun l hl => hpre l (by simp [hl])
    by_cases hB : pyStrip line = SECTION_CLAUDE
    · simp only [List.cons_append, parseFrom, nextState, if_neg hA, if_pos hB,
        if_neg (by simp : ¬(false = true))]
      simpa [consFront] using ih post true hpre' hpost
    · simp only [List.cons_append, parseFrom, nextState, if_neg hA, if_neg hB]
      rw [if_neg (by simp), if_neg (by simp)]
      simpa [consFront] using ih post cl hpre' hpost

/-! ### Order of the five buckets -/

def rank : SectionTag → Nat
  | .before_mm => 0
  | .mm_section => 1
  | .between_sections => 2
  | .claude_section => 3
  | .after_claude => 4

/-- Number of lines that strip to the M+M marker. -/
def countMM (lines : List (List Char)) : Nat :=
  lines.countP (fun l => decide (pyStrip l = SECTION_MM))

/-- Number of lines that strip to the Claude marker. -/
def countClaude (lines : List (List Char)) : Nat :=
  lines.countP (fun l => decide (pyStrip l = SECTION_CLAUDE))

theorem countMM_cons (line : List Char) (rest : List (List Char)) :
    countMM (line :: rest)
      = countMM rest + (if pyStrip line = SECTION_MM then 1 else 0) := by
  simp [countMM, List.countP_cons]

theorem countClaude_cons (line : List Char) (rest : List (List Char)) :
    countClaude (line :: rest)
      = countClaude rest + (if pyStrip line = SECTION_CLAUDE then 1 else 0) := by
  simp [countClaude, List.countP_cons]

theorem MM_ne_CLAUDE : SECTION_MM ≠ SECTION_CLAUDE := by decide

theorem CLAUDE_ne_MM : SECTION_CLAUDE ≠ SECTION_MM := by decide

/-- All buckets strictly below `tag` in the fixed order are empty. -/
def lowEmpty (st : SummaryStructure) (tag : SectionTag) : Prop :=
  (1 ≤ rank tag → st.before_mm = []) ∧ (2 ≤ rank tag → st.mm_section = [])
    ∧ (3 ≤ rank tag → st.between_sections = [])
    ∧ (4 ≤ rank tag → st.claude_section = [])

/-- Invariant under which the parse never moves to an earlier bucket: each
marker may still occur at most once, the M+M marker not at all once
`mm_found`, the Claude marker not at all once inside or past the Claude
section; a state other than `before_mm` implies `mm_found`. -/
def InvParse (tag : SectionTag) (mm : Bool) (lines : List (List Char)) : Prop :=
  (tag ≠ .before_mm → mm = true) ∧ (mm = true → countMM lines = 0)
    ∧ countMM lines ≤ 1
    ∧ ((tag = .claude_section ∨ tag = .after_claude) → countClaude lines = 0)
    ∧ countClaude lines ≤ 1

theorem lowEmpty_consFront (st : SummaryStructure) (tag tag' : SectionTag)
    (line : List Char) (hle : rank tag ≤ rank tag') (h : lowEmpty st tag') :
    lowEmpty (consFront st tag' line) tag := by
  cases tag' <;>
    simp only [lowEmpty, consFront, rank] at h hle ⊢ <;>
    refine ⟨?_, ?_, ?_, ?_⟩ <;> intro hr <;>
    first
      | exact h.1 (by omega)
      | exact h.2.1 (by omega)
      | exact h.2.2.1 (by omega)
      | exact h.2.2.2 (by omega)
      | (exfalso; omega)

theorem concat_consFront_before (st : SummaryStructure) (line : List Char) :
    concatSegs (consFront st .before_mm line) = line :: concatSegs st := by
  simp [concatSegs, consFront]

theorem concat_consFront_mm (st : SummaryStructure) (line : List Char)
    (hb : st.before_mm = []) :
    concatSegs (consFront st .mm_section line) = line :: concatSegs st := by
  simp [concatSegs, consFront, hb]

theorem concat_consFront_between (st : SummaryStructure) (line : List Char)
    (hb : st.before_mm = []) (hm : st.mm_section = []) :
    concatSegs (consFront st .between_sections line) = line :: concatSegs st := by
  simp [concatSegs, consFront, hb, hm]

theorem concat_consFront_claude (st : SummaryStructure) (line : List Char)
    (hb : st.before_mm = []) (hm : st.mm_section = [])
    (hbet : st.between_sections = []) :
    concatSegs (consFront st .claude_section line) = line :: concatSegs st := by
  simp [concatSegs, consFront, hb, hm, hbet]

theorem concat_consFront_after (st : SummaryStructure) (line : List Char)
    (hb : st.before_mm = []) (hm : st.mm_section = [])
    (hbet : st.between_sections = []) (hcl : st.claude_section = []) :
    concatSegs (consFront st .after_claude line) = line :: concatSegs st := by
  simp [concatSegs, consFront, hb, hm, hbet, hcl]


theorem concat_consFront (st : SummaryStructure) (tag : SectionTag)
    (line : List Char) (hlow : lowEmpty st tag) :
    concatSegs (consFront st tag line) = line :: concatSegs st := by
  cases tag with
  | before_mm => exact concat_consFront_before st line
  | mm_section => exact concat_consFront_mm st line (hlow.1 (by simp [rank]))
  | between_sections =>
    exact concat_consFront_between st line (hlow.1 (by simp [rank]))
      (hlow.2.1 (by simp [rank]))
  | claude_section =>
    exact concat_consFront_claude st line (hlow.1 (by simp [rank]))
      (hlow.2.1 (by simp [rank])) (hlow.2.2.1 (by simp [rank]))
  | after_claude =>
    exact concat_consFront_after st line (hlow.1 (by simp [rank]))
      (hlow.2.1 (by simp [rank])) (hlow.2.2.1 (by simp [rank]))
      (hlow.2.2.2 (by simp [rank]))

theorem lowEmpty_mono (st : SummaryStructure) (tag tag' : SectionTag)
    (hle : rank tag ≤ rank tag') (h : lowEmpty st tag') : lowEmpty st tag := by
  obtain ⟨p1, p2, p3, p4⟩ := h
  exact ⟨fun hr => p1 (by omega), fun hr => p2 (by omega),
    fun hr => p3 (by omega), fun hr => p4 (by omega)⟩

/-- Under the invariant the bucket ranks never decrease along the run, so
concatenating the five buckets in order rebuilds the input lines. -/
theorem parseFrom_ordered :
    ∀ (lines : List (List Char)) (tag : SectionTag) (mm cl : Bool),
      InvParse tag mm lines →
      lowEmpty (parseFrom tag mm cl lines) tag
        ∧ concatSegs (parseFrom tag mm cl lines) = lines := by
  intro lines
  induction lines with
  | nil =>
    intro tag mm cl _
    exact ⟨⟨fun _ => rfl, fun _ => rfl, fun _ => rfl, fun _ => rfl⟩, rfl⟩
  | cons line rest ih =>
    intro tag mm cl hinv
    obtain ⟨h1, h2, h3, h4, h5⟩ := hinv
    rw [countMM_cons] at h2 h3
    rw [countClaude_cons] at h4 h5
    have main : ∀ (tag' : SectionTag) (mm' cl' : Bool),
        nextState tag mm cl line = (tag', mm', cl') →
        rank tag ≤ rank tag' → InvParse tag' mm' rest →
        lowEmpty (parseFrom tag mm cl (line :: rest)) tag
          ∧ concatSegs (parseFrom tag mm cl (line :: rest)) = line :: rest := by
      intro tag' mm' cl' hns hrk hinv'
      obtain ⟨hlow, hcat⟩ := ih tag' mm' cl' hinv'
      have hrew : parseFrom tag mm cl (line :: rest)
          = consFront (parseFrom tag' mm' cl' rest) tag' line := by
        simp only [parseFrom, hns]
      rw [hrew]
      exact ⟨lowEmpty_consFront _ _ _ _ hrk hlow,
        by rw [concat_consFront _ _ _ hlow, hcat]⟩
    by_cases hA : pyStrip line = SECTION_MM
    · -- the M+M marker: jump to the M+M bucket
      rw [if_pos hA] at h2 h3
      rw [if_neg (fun hc => MM_ne_CLAUDE (hA ▸ hc))] at h4 h5
      have hmm : mm = false := by
        cases mm
        · rfl
        · exact absurd (h2 rfl) (by omega)
      subst hmm
      have htag : tag = .before_mm := by
        by_contra hn
        exact Bool.false_ne_true (h1 hn)
      subst htag
      refine main .mm_section true cl (by simp [nextState, hA]) (by simp [rank]) ?_
      exact ⟨fun _ => rfl, fun _ => by omega, by omega, by simp, by omega⟩
    · rw [if_neg hA] at h2 h3
      by_cases hB : pyStrip line = SECTION_CLAUDE
      · rw [if_pos hB] at h4 h5
        cases mm with
        | true =>
          -- Claude marker with M+M found: jump to the Claude bucket
          have h2' := h2 rfl
          have htagne : tag ≠ .claude_section ∧ tag ≠ .after_claude := by
            constructor <;> intro hcon <;>
              exact absurd (h4 (by simp [hcon])) (by omega)
          have hrk : rank tag ≤ rank .claude_section := by
            obtain ⟨hx, hy⟩ := htagne
            cases tag <;> simp_all [rank]
          refine main .claude_section true true
            (by simp [nextState, hA, hB, CLAUDE_ne_MM]) hrk ?_
          exact ⟨fun _ => rfl, fun _ => by omega, by omega, fun _ => by omega,
            by omega⟩
        | false =>
          -- Claude marker before M+M: stay before the M+M section
          have htag : tag = .before_mm := by
            by_contra hn
            exact Bool.false_ne_true (h1 hn)
          subst htag
          refine main .before_mm false true
            (by simp [nextState, hA, hB, CLAUDE_ne_MM]) (by simp [rank]) ?_
          exact ⟨fun hn => absurd rfl hn, by simp, by omega, by simp, by omega⟩
      · -- no marker on this line
        rw [if_neg hB] at h4 h5
        have hmm0 : mm = true → countMM rest = 0 := fun hmt => by
          have := h2 hmt; omega
        by_cases hH : "##".data.isPrefixOf (pyStrip line) = true
        · cases tag with
          | mm_section =>
            refine main .between_sections mm cl
              (by simp [nextState, hA, hB, hH]) (by simp [rank]) ?_
            exact ⟨fun _ => h1 (by simp), hmm0, by omega, by simp, by omega⟩
          | claude_section =>
            have h4' := h4 (Or.inl rfl)
            refine main .after_claude mm cl
              (by simp [nextState, hA, hB, hH]) (by simp [rank]) ?_
            exact ⟨fun _ => h1 (by simp), hmm0, by omega, fun _ => by omega,
              by omega⟩
          | before_mm =>
            refine main .before_mm mm cl
              (by simp [nextState, hA, hB, hH]) (by simp [rank]) ?_
            exact ⟨h1, hmm0, by omega, by simp, by omega⟩
          | between_sections =>
            refine main .between_sections mm cl
              (by simp [nextState, hA, hB, hH]) (by simp [rank]) ?_
            exact ⟨h1, hmm0, by omega, by simp, by omega⟩
          | after_claude =>
            have h4' := h4 (Or.inr rfl)
            refine main .after_claude mm cl
              (by simp [nextState, hA, hB, hH]) (by simp [rank]) ?_
            exact ⟨h1, hmm0, by omega, fun _ => by omega, by omega⟩
        · refine main tag mm cl ?_ (le_refl _) ?_
          · simp only [nextState]
            rw [if_neg hA, if_neg hB, if_neg (fun hc => hH hc.2),
              if_neg (fun hc => hH hc.2)]
          · exact ⟨h1, hmm0, by omega, fun ht => by have := h4 ht; omega,
              by omega⟩

/-- With each marker occurring at most once, the five-bucket partition is
order preserving: its concatenation is the input line list. -/
theorem concatSegs_parse (lines : List (List Char))
    (hA : countMM lines ≤ 1) (hB : countClaude lines ≤ 1) :
    concatSegs (parse_summary_structure lines) = lines := by
  refine (parseFrom_ordered lines .before_mm false false
    ⟨fun hn => absurd rfl hn, ?_, hA, by simp, hB⟩).2
  intro hc
  exact absurd hc (by simp)

/-! ### Lemmas about the link matcher -/

theorem pathSearch_length :
    ∀ (cs p r : List Char), pathSearch cs = some (p, r) → r.length ≤ cs.length := by
  intro cs
  induction cs with
  | nil => intro p r h; simp [pathSearch] at h
  | cons c rest ih =>
    intro p r h
    simp only [pathSearch] at h
    split at h
    · simp only [Option.some.injEq, Prod.mk.injEq] at h
      rcases h with ⟨hp, hr⟩
      rw [← hr, List.length_drop, List.length_cons]
      omega
    · split at h
      · simp at h
      · cases hps : pathSearch rest with
        | none => rw [hps] at h; simp at h
        | some pr =>
          rw [hps] at h
          rcases pr with ⟨p', r'⟩
          simp at h
          have hlen := ih p' r' hps
          rcases h with ⟨hp, hr⟩
          subst hr
          simp only [List.length_cons]
          omega

theorem labelSearch_length :
    ∀ (cs p r : List Char), labelSearch cs = some (p, r) → r.length ≤ cs.length := by
  intro cs
  induction cs with
  | nil => intro p r h; simp [labelSearch] at h
  | cons c rest ih =>
    intro p r h
    simp only [labelSearch] at h
    split at h
    next pr hpr =>
      rcases pr with ⟨p', r'⟩
      split at hpr
      · simp only [Option.some.injEq, Prod.mk.injEq] at h
        rcases h with ⟨hp, hr⟩
        subst hp
        subst hr
        have hlen := pathSearch_length _ _ _ hpr
        have hd := List.length_drop 1 rest
        simp only [List.length_cons]
        omega
      · simp at hpr
    next hpr =>
      split at h
      · simp at h
      · have := ih p r h
        simp
        omega

theorem findMatchesAux_nil (fuel : Nat) : findMatchesAux fuel [] = [] := by
  cases fuel <;> rfl

theorem findMatchesAux_congr :
    ∀ (n f1 f2 : Nat) (cs : List Char), cs.length ≤ f1 → cs.length ≤ f2 →
      f1 ≤ n → f2 ≤ n → findMatchesAux f1 cs = findMatchesAux f2 cs := by
  intro n
  induction n with
  | zero =>
    intro f1 f2 cs h1 h2 hn1 hn2
    have : f1 = 0 := by omega
    have : f2 = 0 := by omega
    subst_vars
    rfl
  | succ n ihn =>
    intro f1 f2 cs h1 h2 hn1 hn2
    cases cs with
    | nil => rw [findMatchesAux_nil, findMatchesAux_nil]
    | cons c rest =>
      simp only [List.length_cons] at h1 h2
      cases f1 with
      | zero => omega
      | succ k1 =>
        cases f2 with
        | zero => omega
        | succ k2 =>
          simp only [findMatchesAux]
          by_cases hc : c = '['
          · rw [if_pos hc, if_pos hc]
            cases hls : labelSearch rest with
            | none => exact ihn k1 k2 rest (by omega) (by omega) (by omega) (by omega)
            | some pr =>
              rcases pr with ⟨p, rest2⟩
              have hlen := labelSearch_length rest p rest2 hls
              show p :: findMatchesAux k1 rest2 = p :: findMatchesAux k2 rest2
              rw [ihn k1 k2 rest2 (by omega) (by omega) (by omega) (by omega)]
          · rw [if_neg hc, if_neg hc]
            exact ihn k1 k2 rest (by omega) (by omega) (by omega) (by omega)

theorem findMatchesAux_eq_extract (fuel : Nat) (cs : List Char)
    (h : cs.length ≤ fuel) : findMatchesAux fuel cs = extract_existing_links cs :=
  findMatchesAux_congr fuel fuel cs.length cs h (le_refl _) (le_refl _) h

/-- No 4-character window that contains the newline matches `.md)`, so the
path matcher never crosses a line boundary. -/
theorem pathSearch_append_nl :
    ∀ (x b : List Char),
      pathSearch (x ++ '\n' :: b)
        = (pathSearch x).map (fun pr => (pr.1, pr.2 ++ '\n' :: b)) := by
  intro x
  induction x with
  | nil =>
    intro b
    simp [pathSearch, List.take_succ_cons]
  | cons c x' ih =>
    intro b
    rw [List.cons_append]
    by_cases h3 : 3 ≤ x'.length
    · have htake : (x' ++ '\n' :: b).take 3 = x'.take 3 := by
        rw [List.take_append_eq_append_take, Nat.sub_eq_zero_of_le h3]
        simp
      by_cases hcond : (c :: x').take 4 = ['.', 'm', 'd', ')']
      · have hcond' : (c :: (x' ++ '\n' :: b)).take 4 = ['.', 'm', 'd', ')'] := by
          rw [List.take_succ_cons, htake, ← List.take_succ_cons]
          exact hcond
        rw [pathSearch, if_pos hcond', pathSearch, if_pos hcond]
        have hdrop : (x' ++ '\n' :: b).drop 3 = x'.drop 3 ++ '\n' :: b := by
          rw [List.drop_append_eq_append_drop, Nat.sub_eq_zero_of_le h3]
          simp
        simp [hdrop]
      · have hcond' : ¬((c :: (x' ++ '\n' :: b)).take 4 = ['.', 'm', 'd', ')']) := by
          rw [List.take_succ_cons, htake, ← List.take_succ_cons]
          exact hcond
        rw [pathSearch, if_neg hcond', pathSearch, if_neg hcond]
        by_cases hc : c = '\n'
        · rw [if_pos hc, if_pos hc]
          rfl
        · rw [if_neg hc, if_neg hc, ih b, Option.map_map, Option.map_map]
          rfl
    · have hcond : ¬((c :: x').take 4 = ['.', 'm', 'd', ')']) := by
        intro hcon
        have := congrArg List.length hcon
        rw [List.length_take] at this
        simp at this
        omega
      have hcond' : ¬((c :: (x' ++ '\n' :: b)).take 4 = ['.', 'm', 'd', ')']) := by
        intro hcon
        rcases x' with _ | ⟨a1, _ | ⟨a2, _ | ⟨a3, xr⟩⟩⟩
        · simp [List.take_succ_cons] at hcon
        · simp [List.take_succ_cons] at hcon
        · simp [List.take_succ_cons] at hcon
        · exact h3 (by simp)
      rw [pathSearch, if_neg hcond', pathSearch, if_neg hcond]
      by_cases hc : c = '\n'
      · rw [if_pos hc, if_pos hc]
        rfl
      · rw [if_neg hc, if_neg hc, ih b, Option.map_map, Option.map_map]
        rfl

theorem labelSearch_nl_cons (b : List Char) : labelSearch ('\n' :: b) = none := by
  simp [labelSearch, List.take_succ_cons]

/-- The label matcher also never crosses a line boundary. -/
theorem labelSearch_append_nl :
    ∀ (x b : List Char),
      labelSearch (x ++ '\n' :: b)
        = (labelSearch x).map (fun pr => (pr.1, pr.2 ++ '\n' :: b)) := by
  intro x
  induction x with
  | nil =>
    intro b
    rw [List.nil_append, labelSearch_nl_cons]
    rfl
  | cons c x' ih =>
    intro b
    rw [List.cons_append]
    cases x' with
    | nil =>
      rw [List.nil_append]
      by_cases hc : c = '\n'
      · subst hc
        rw [labelSearch_nl_cons]
        simp [labelSearch]
      · simp [labelSearch, List.take_succ_cons, hc, labelSearch_nl_cons]
    | cons d x'' =>
      have htake : (c :: (d :: x'' ++ '\n' :: b)).take 2 = (c :: d :: x'').take 2 := by
        simp [List.take_succ_cons]
      by_cases hcond : (c :: d :: x'').take 2 = [']', '(']
      · rw [labelSearch, if_pos (htake.trans hcond), labelSearch, if_pos hcond]
        have hdrop : ((d :: x'' ++ '\n' :: b) : List Char).drop 1
            = (d :: x'').drop 1 ++ '\n' :: b := by simp
        rw [hdrop, pathSearch_append_nl]
        cases hps : pathSearch ((d :: x'').drop 1) with
        | none =>
          simp only [Option.map_none']
          by_cases hc : c = '\n'
          · rw [if_pos hc, if_pos hc]
            rfl
          · rw [if_neg hc, if_neg hc, ih b]
        | some pr => simp
      · rw [labelSearch, if_neg (fun hcon => hcond (htake.symm.trans hcon)),
          labelSearch, if_neg hcond]
        by_cases hc : c = '\n'
        · rw [if_pos hc, if_pos hc]
          rfl
        · rw [if_neg hc, if_neg hc, ih b]

/-- Since `.` in the pattern cannot match a newline, extraction distributes
over a newline: every match lies within one line. -/
theorem extract_append_nl :
    ∀ (n : Nat) (x b : List Char), x.length ≤ n →
      extract_existing_links (x ++ '\n' :: b)
        = extract_existing_links x ++ extract_existing_links b := by
  intro n
  induction n with
  | zero =>
    intro x b hx
    have : x = [] := List.eq_nil_of_length_eq_zero (by omega)
    subst this
    rw [List.nil_append]
    show findMatchesAux (b.length + 1) ('\n' :: b) = _
    rw [findMatchesAux, if_neg (by decide)]
    rfl
  | succ n ihn =>
    intro x b hx
    cases x with
    | nil =>
      rw [List.nil_append]
      show findMatchesAux (b.length + 1) ('\n' :: b) = _
      rw [findMatchesAux, if_neg (by decide)]
      rfl
    | cons c x' =>
      rw [List.cons_append]
      show findMatchesAux ((x' ++ '\n' :: b).length + 1) (c :: (x' ++ '\n' :: b)) = _
      rw [findMatchesAux]
      by_cases hc : c = '['
      · rw [if_pos hc]
        have hR : extract_existing_links (c :: x')
            = findMatchesAux (x'.length + 1) (c :: x') := rfl
        rw [hR, findMatchesAux, if_pos hc, labelSearch_append_nl]
        cases hls : labelSearch x' with
        | none =>
          simp only [Option.map_none']
          have h1 : findMatchesAux (x' ++ '\n' :: b).length (x' ++ '\n' :: b)
              = extract_existing_links (x' ++ '\n' :: b) := rfl
          have h2 : findMatchesAux x'.length x' = extract_existing_links x' := rfl
          rw [h1, h2, ihn x' b (by simp at hx; omega)]
        | some pr =>
          rcases pr with ⟨p, r⟩
          simp only [Option.map_some]
          have hrlen := labelSearch_length x' p r hls
          show p :: findMatchesAux (x' ++ '\n' :: b).length (r ++ '\n' :: b)
              = (p :: findMatchesAux x'.length r) ++ _
          rw [findMatchesAux_eq_extract _ _ (by simp; omega),
            findMatchesAux_eq_extract _ _ (by omega),
            ihn r b (by simp at hx; omega)]
          simp
      · rw [if_neg hc]
        have hR : extract_existing_links (c :: x')
            = findMatchesAux (x'.length + 1) (c :: x') := rfl
        rw [hR, findMatchesAux, if_neg hc]
        have h1 : findMatchesAux (x' ++ '\n' :: b).length (x' ++ '\n' :: b)
            = extract_existing_links (x' ++ '\n' :: b) := rfl
        have h2 : findMatchesAux x'.length x' = extract_existing_links x' := rfl
        rw [h1, h2, ihn x' b (by simp at hx; omega)]

theorem extract_join :
    ∀ (x b : List Char),
      extract_existing_links (x ++ '\n' :: b)
        = extract_existing_links x ++ extract_existing_links b :=
  fun x b => extract_append_nl x.length x b (le_refl _)

/-- Extraction over a joined line list is the concatenation of the per-line
extractions: link matching is insensitive to which line holds the link. -/
theorem extract_joinLines :
    ∀ (ls : List (List Char)),
      extract_existing_links (joinLines ls) = ls.flatMap extract_existing_links := by
  intro ls
  induction ls with
  | nil => rfl
  | cons l ls ih =>
    cases ls with
    | nil => simp [joinLines]
    | cons l2 ls2 =>
      rw [joinLines_cons l (l2 :: ls2) (by simp), extract_join, ih]
      simp

/-! ### Soundness of the matcher: every capture is a link decomposition -/

theorem pathSearch_sound :
    ∀ (cs p r : List Char), pathSearch cs = some (p, r) →
      ∃ t, cs = t ++ '.' :: 'm' :: 'd' :: ')' :: r ∧ p = t ++ ['.', 'm', 'd']
        ∧ ∀ c ∈ t, c ≠ '\n' := by
  intro cs
  induction cs with
  | nil => intro p r h; simp [pathSearch] at h
  | cons c rest ih =>
    intro p r h
    rw [pathSearch] at h
    split at h
    next hcond =>
      simp only [Option.some.injEq, Prod.mk.injEq] at h
      rcases h with ⟨hp, hr⟩
      refine ⟨[], ?_, hp.symm, by simp⟩
      have hsplit := (List.take_append_drop 4 (c :: rest)).symm
      rw [hcond] at hsplit
      rw [hsplit, ← hr]
      simp
    next hcond =>
      split at h
      · simp at h
      next hc =>
        cases hps : pathSearch rest with
        | none => rw [hps] at h; simp at h
        | some pr =>
          rcases pr with ⟨p', r'⟩
          rw [hps] at h
          simp at h
          rcases h with ⟨hp, hr⟩
          obtain ⟨t, ht, htp, htn⟩ := ih p' r' hps
          subst hr
          refine ⟨c :: t, by rw [List.cons_append, ← ht], by rw [← hp, htp]; rfl, ?_⟩
          intro x hx
          rcases List.mem_cons.mp hx with hx | hx
          · subst hx; exact hc
          · exact htn x hx

theorem labelSearch_sound :
    ∀ (cs p r : List Char), labelSearch cs = some (p, r) →
      ∃ lab rest0, cs = lab ++ ']' :: '(' :: rest0
        ∧ pathSearch rest0 = some (p, r) ∧ ∀ c ∈ lab, c ≠ '\n' := by
  intro cs
  induction cs with
  | nil => intro p r h; simp [labelSearch] at h
  | cons c rest ih =>
    intro p r h
    rw [labelSearch] at h
    split at h
    next pr hpr =>
      split at hpr
      next hcond =>
        simp only [Option.some.injEq] at h
        subst h
        refine ⟨[], rest.drop 1, ?_, hpr, by simp⟩
        have hsplit := (List.take_append_drop 2 (c :: rest)).symm
        rw [hcond] at hsplit
        rw [hsplit]
        simp
      · simp at hpr
    next hfail =>
      split at h
      · simp at h
      next hc =>
        obtain ⟨lab, rest0, hsp, hps, hnl⟩ := ih p r h
        refine ⟨c :: lab, rest0, by rw [List.cons_append, ← hsp], hps, ?_⟩
        intro x hx
        rcases List.mem_cons.mp hx with hx | hx
        · subst hx; exact hc
        · exact hnl x hx

theorem findMatchesAux_sound :
    ∀ (fuel : Nat) (cs p : List Char), p ∈ findMatchesAux fuel cs →
      ∃ u lab rest0, cs = u ++ '[' :: (lab ++ ']' :: '(' :: rest0)
        ∧ (∃ r, pathSearch rest0 = some (p, r)) ∧ ∀ c ∈ lab, c ≠ '\n' := by
  intro fuel
  induction fuel with
  | zero => intro cs p h; simp [findMatchesAux] at h
  | succ fuel ih =>
    intro cs p h
    cases cs with
    | nil => simp [findMatchesAux] at h
    | cons c rest =>
      rw [findMatchesAux] at h
      by_cases hc : c = '['
      · rw [if_pos hc] at h
        subst hc
        cases hls : labelSearch rest with
        | none =>
          rw [hls] at h
          obtain ⟨u, lab, rest0, hsp, hex, hnl⟩ := ih rest p h
          exact ⟨'[' :: u, lab, rest0, by rw [hsp]; rfl, hex, hnl⟩
        | some pr =>
          rcases pr with ⟨p0, rest2⟩
          rw [hls] at h
          rcases List.mem_cons.mp h with hp | hp
          · subst hp
            obtain ⟨lab, rest0, hsp, hps, hnl⟩ := labelSearch_sound rest p rest2 hls
            exact ⟨[], lab, rest0, by rw [hsp]; rfl, ⟨rest2, hps⟩, hnl⟩
          · obtain ⟨u', lab', rest0', hsp', hex', hnl'⟩ := ih rest2 p hp
            obtain ⟨lab0, rest00, hsp0, hps0, hnl0⟩ :=
              labelSearch_sound rest p0 rest2 hls
            obtain ⟨t, ht, htp, htn⟩ := pathSearch_sound rest00 p0 rest2 hps0
            refine ⟨'[' :: lab0 ++ ']' :: '(' :: t ++ '.' :: 'm' :: 'd' :: ')' :: u',
              lab', rest0', ?_, hex', hnl'⟩
            rw [hsp0, ht, hsp']
            simp
      · rw [if_neg hc] at h
        obtain ⟨u, lab, rest0, hsp, hex, hnl⟩ := ih rest p h
        exact ⟨c :: u, lab, rest0, by rw [hsp]; rfl, hex, hnl⟩

/-- Modelled from the claim: `p` occurs as the path component of a
markdown-style link `[label](path)` somewhere in the content (label and path
confined to one line), and `p` ends in `.md`. -/
def SpecLinkPath (content p : List Char) : Prop :=
  ∃ u label v, content = u ++ '[' :: (label ++ ']' :: '(' :: (p ++ ')' :: v))
    ∧ (∀ c ∈ label, c ≠ '\n') ∧ (∀ c ∈ p, c ≠ '\n') ∧ ".md".data <:+ p

/-- Every extracted string is the path component of a markdown-style link
ending in `.md`. -/
theorem extract_sound (content p : List Char)
    (h : p ∈ extract_existing_links content) : SpecLinkPath content p := by
  obtain ⟨u, lab, rest0, hsp, ⟨r, hps⟩, hnl⟩ :=
    findMatchesAux_sound content.length content p h
  obtain ⟨t, ht, htp, htn⟩ := pathSearch_sound rest0 p r hps
  refine ⟨u, lab, r, ?_, hnl, ?_, ⟨t, htp.symm⟩⟩
  · rw [hsp, ht, htp]
    simp
  · intro x hx
    rw [htp] at hx
    rcases List.mem_append.mp hx with hx | hx
    · exact htn x hx
    · simp at hx
      rcases hx with hx | hx | hx <;> subst hx <;> decide

/-! ### Lemmas about the merge stage -/

theorem create_entry_two_shape (f : List Char) :
    ∃ tail, create_entry f 2 = ' ' :: ' ' :: ' ' :: ' ' :: '*' :: tail :=
  ⟨_, rfl⟩

theorem create_entry_ne_researchHeader (f : List Char) :
    create_entry f 2 ≠ researchHeaderLine := by
  intro h
  obtain ⟨tail, hsh⟩ := create_entry_two_shape f
  rw [hsh] at h
  simp [researchHeaderLine] at h

theorem create_entry_ne_outputHeader (f : List Char) :
    create_entry f 2 ≠ outputHeaderLine := by
  intro h
  obtain ⟨tail, hsh⟩ := create_entry_two_shape f
  rw [hsh] at h
  simp [outputHeaderLine] at h

theorem count_map_entry (f : List Char) :
    ∀ (lst : List (List Char)),
      (∀ g ∈ lst, create_entry g 2 = create_entry f 2 → g = f) →
      (lst.map (fun g => create_entry g 2)).count (create_entry f 2)
        = lst.count f := by
  intro lst
  induction lst with
  | nil => intro _; rfl
  | cons g lst' ih =>
    intro hinj
    have hinj' : ∀ g' ∈ lst', create_entry g' 2 = create_entry f 2 → g' = f :=
      fun g' hg' => hinj g' (by simp [hg'])
    simp only [List.map_cons, List.count_cons, ih hinj', beq_iff_eq]
    by_cases hbe : create_entry g 2 = create_entry f 2
    · have hgf : g = f := hinj g (by simp) hbe
      rw [if_pos hbe, if_pos hgf]
    · have hgf : ¬(g = f) := fun hcon => hbe (by rw [hcon])
      rw [if_neg hbe, if_neg hgf]

theorem count_map_entry_zero (e : List Char) :
    ∀ (lst : List (List Char)), (∀ g ∈ lst, create_entry g 2 ≠ e) →
      (lst.map (fun g => create_entry g 2)).count e = 0 := by
  intro lst
  induction lst with
  | nil => intro _; rfl
  | cons g lst' ih =>
    intro hne
    simp only [List.map_cons, List.count_cons, beq_iff_eq]
    rw [if_neg (hne g (by simp)), ih (fun g' hg' => hne g' (by simp [hg']))]

/-- The Research group-header line is produced exactly when there are new
research files and no M+M line contains the substring `* [Research]`. -/
theorem mem_header_research_part (mml r e : List (List Char)) :
    researchHeaderLine ∈ research_part mml r e ↔
      (r.filter (fun f => !decide (f ∈ e)) ≠ []
        ∧ ¬(mml.any (fun l => hasSub "* [Research]".data l) = true)) := by
  unfold research_part
  by_cases hnew : r.filter (fun f => !decide (f ∈ e)) = []
  · rw [if_pos hnew]
    simp [hnew]
  · rw [if_neg hnew]
    by_cases hany : mml.any (fun l => hasSub "* [Research]".data l) = true
    · rw [if_pos hany]
      simp only [List.nil_append]
      constructor
      · intro hmem
        obtain ⟨g, _, hg⟩ := List.mem_map.mp hmem
        exact absurd hg (create_entry_ne_researchHeader g)
      · intro hcon
        exact absurd hany hcon.2
    · rw [if_neg hany]
      simp [hnew, hany]

theorem entry_mem_research_part (mml r e : List (List Char)) (f : List Char)
    (hf : f ∈ r) (hfe : f ∉ e) : create_entry f 2 ∈ research_part mml r e := by
  unfold research_part
  have hmem : f ∈ r.filter (fun g => !decide (g ∈ e)) :=
    List.mem_filter.mpr ⟨hf, by simp [hfe]⟩
  rw [if_neg (fun hcon => by rw [hcon] at hmem; simp at hmem)]
  exact List.mem_append.mpr (Or.inr (List.mem_map.mpr ⟨f, hmem, rfl⟩))

theorem entry_mem_output_part (mml o e : List (List Char)) (f : List Char)
    (hf : f ∈ o) (hfe : f ∉ e) : create_entry f 2 ∈ output_part mml o e := by
  unfold output_part
  have hmem : f ∈ o.filter (fun g => !decide (g ∈ e)) :=
    List.mem_filter.mpr ⟨hf, by simp [hfe]⟩
  rw [if_neg (fun hcon => by rw [hcon] at hmem; simp at hmem)]
  exact List.mem_append.mpr (Or.inr (List.mem_map.mpr ⟨f, hmem, rfl⟩))

/-- The number of times the rendered entry for `f` occurs in the Research
block: once per occurrence of `f` among the new research files. -/
theorem count_research_part (mml r e : List (List Char)) (f : List Char)
    (hinj : ∀ g ∈ r, create_entry g 2 = create_entry f 2 → g = f) :
    (research_part mml r e).count (create_entry f 2)
      = (r.filter (fun g => !decide (g ∈ e))).count f := by
  unfold research_part
  by_cases hnew : r.filter (fun g => !decide (g ∈ e)) = []
  · rw [if_pos hnew, hnew]
    rfl
  · rw [if_neg hnew, List.count_append]
    have hinj' : ∀ g ∈ r.filter (fun g => !decide (g ∈ e)),
        create_entry g 2 = create_entry f 2 → g = f :=
      fun g hg => hinj g (List.mem_filter.mp hg).1
    rw [count_map_entry f _ hinj']
    have hhd : ∀ (hd : List (List Char)),
        (∀ l ∈ hd, l = researchHeaderLine) → hd.count (create_entry f 2) = 0 := by
      intro hd hall
      rw [List.count_eq_zero]
      intro hmem
      exact create_entry_ne_researchHeader f (hall _ hmem)
    split
    · rw [hhd [] (by simp)]
      omega
    · rw [hhd [researchHeaderLine] (by simp)]
      omega

theorem count_output_part_zero (mml o e : List (List Char)) (f : List Char)
    (hinj : ∀ g ∈ o, create_entry g 2 ≠ create_entry f 2) :
    (output_part mml o e).count (create_entry f 2) = 0 := by
  unfold output_part
  by_cases hnew : o.filter (fun g => !decide (g ∈ e)) = []
  · rw [if_pos hnew]
    rfl
  · rw [if_neg hnew, List.count_append]
    have hz : ((o.filter (fun g => !decide (g ∈ e))).map
        (fun g => create_entry g 2)).count (create_entry f 2) = 0 :=
      count_map_entry_zero _ _
        (fun g hg => hinj g (List.mem_filter.mp hg).1)
    rw [hz]
    have hhd : ∀ (hd : List (List Char)),
        (∀ l ∈ hd, l = outputHeaderLine) → hd.count (create_entry f 2) = 0 := by
      intro hd hall
      rw [List.count_eq_zero]
      intro hmem
      exact create_entry_ne_outputHeader f (hall _ hmem)
    split
    · rw [hhd [] (by simp)]
    · rw [hhd [outputHeaderLine] (by simp)]

/-- The Output group-header line is produced exactly when there are new
output files and no M+M line contains the substring `* [Output]`. -/
theorem mem_header_output_part (mml o e : List (List Char)) :
    outputHeaderLine ∈ output_part mml o e ↔
      (o.filter (fun f => !decide (f ∈ e)) ≠ []
        ∧ ¬(mml.any (fun l => hasSub "* [Output]".data l) = true)) := by
  unfold output_part
  by_cases hnew : o.filter (fun f => !decide (f ∈ e)) = []
  · rw [if_pos hnew]
    simp [hnew]
  · rw [if_neg hnew]
    by_cases hany : mml.any (fun l => hasSub "* [Output]".data l) = true
    · rw [if_pos hany]
      simp only [List.nil_append]
      constructor
      · intro hmem
        obtain ⟨g, _, hg⟩ := List.mem_map.mp hmem
        exact absurd hg (create_entry_ne_outputHeader g)
      · intro hcon
        exact absurd hany hcon.2
    · rw [if_neg hany]
      simp [hnew, hany]

/-- The number of times the rendered entry for `f` occurs in the Output
block: once per occurrence of `f` among the new output files. -/
theorem count_output_part (mml o e : List (List Char)) (f : List Char)
    (hinj : ∀ g ∈ o, create_entry g 2 = create_entry f 2 → g = f) :
    (output_part mml o e).count (create_entry f 2)
      = (o.filter (fun g => !decide (g ∈ e))).count f := by
  unfold output_part
  by_cases hnew : o.filter (fun g => !decide (g ∈ e)) = []
  · rw [if_pos hnew, hnew]
    rfl
  · rw [if_neg hnew, List.count_append]
    have hinj' : ∀ g ∈ o.filter (fun g => !decide (g ∈ e)),
        create_entry g 2 = create_entry f 2 → g = f :=
      fun g hg => hinj g (List.mem_filter.mp hg).1
    rw [count_map_entry f _ hinj']
    have hhd : ∀ (hd : List (List Char)),
        (∀ l ∈ hd, l = outputHeaderLine) → hd.count (create_entry f 2) = 0 := by
      intro hd hall
      rw [List.count_eq_zero]
      intro hmem
      exact create_entry_ne_outputHeader f (hall _ hmem)
    split
    · rw [hhd [] (by simp)]
      omega
    · rw [hhd [outputHeaderLine] (by simp)]
      omega

theorem count_research_part_zero (mml r e : List (List Char)) (f : List Char)
    (hinj : ∀ g ∈ r, create_entry g 2 ≠ create_entry f 2) :
    (research_part mml r e).count (create_entry f 2) = 0 := by
  unfold research_part
  by_cases hnew : r.filter (fun g => !decide (g ∈ e)) = []
  · rw [if_pos hnew]
    rfl
  · rw [if_neg hnew, List.count_append]
    have hz : ((r.filter (fun g => !decide (g ∈ e))).map
        (fun g => create_entry g 2)).count (create_entry f 2) = 0 :=
      count_map_entry_zero _ _
        (fun g hg => hinj g (List.mem_filter.mp hg).1)
    rw [hz]
    have hhd : ∀ (hd : List (List Char)),
        (∀ l ∈ hd, l = researchHeaderLine) → hd.count (create_entry f 2) = 0 := by
      intro hd hall
      rw [List.count_eq_zero]
      intro hmem
      exact create_entry_ne_researchHeader f (hall _ hmem)
    split
    · rw [hhd [] (by simp)]
    · rw [hhd [researchHeaderLine] (by simp)]

/-- `insert_research_output_sections` in closed form: the conditional tail of
the M+M bucket is just `drop` of the insertion index. -/
theorem insert_eq (st : SummaryStructure) (r o e : List (List Char)) :
    insert_research_output_sections st r o e
      = st.before_mm ++ st.mm_section.take (insertion_index st.mm_section)
        ++ research_part st.mm_section r e ++ output_part st.mm_section o e
        ++ st.mm_section.drop (insertion_index st.mm_section)
        ++ st.between_sections ++ st.claude_section ++ st.after_claude := by
  simp only [insert_research_output_sections]
  by_cases h : insertion_index st.mm_section < st.mm_section.length
  · rw [if_pos h]
  · rw [if_neg h, List.drop_eq_nil_of_le (by omega)]

/-! ### The claims -/

/-- Claim C1 is false as stated: on an outline with no `## M+M` line, the
merge still inserts content — here a synthetic `  * [Research]` group header
(and an entry) appears in the output even though marker A is absent. -/
theorem C1_counterexample :
    (∀ l ∈ splitLines "# Title".data, pyStrip l ≠ SECTION_MM)
      ∧ researchHeaderLine ∈ insert_research_output_sections
          (parse_summary_structure (splitLines "# Title".data))
          ["research/a.md".data] [] [] := by
  constructor
  · decide
  · decide

/-- Claim C1 (amended): when marker A is absent from the outline, the merge
appends the synthetic group headers and the new link entries at the very end
of the output, after all original lines, rather than inserting nothing. -/
theorem C1_claim (lines r o e : List (List Char))
    (h : ∀ l ∈ lines, pyStrip l ≠ SECTION_MM) :
    insert_research_output_sections (parse_summary_structure lines) r o e
      = lines ++ research_part [] r e ++ output_part [] o e := by
  have hp : parse_summary_structure lines = ⟨lines, [], [], [], []⟩ :=
    parseFrom_no_mm lines false h
  rw [hp, insert_eq]
  simp [insertion_index]

/-- Claim C1 witness: the amended statement evaluated on a concrete
marker-free outline. -/
theorem C1_witness :
    insert_research_output_sections
        (parse_summary_structure (splitLines "# Title".data))
        ["research/a.md".data] [] []
      = splitLines "# Title".data
        ++ research_part [] ["research/a.md".data] []
        ++ output_part [] [] [] :=
  C1_claim (splitLines "# Title".data) ["research/a.md".data] [] [] (by decide)

/-- Claim C2 is false as stated: for an outline whose preserved tail holds a
blank line, the written content ends in two newline characters, not exactly
one, even though the run is a genuine update (a new research file exists). -/
theorem C2_counterexample :
    (update_content "## M+M\n## X\n\n".data
        ["research/a.md".data] []).reverse.take 2 = ['\n', '\n']
      ∧ ["research/a.md".data].filter
          (fun f => !decide (f ∈ extract_existing_links "## M+M\n## X\n\n".data))
          ≠ [] := by
  constructor
  · decide
  · decide

/-- Claim C2 (amended): the content written back by a non-dry-run update
always ends with at least one trailing newline (exactly one is appended when
the joined line list does not already end in one). -/
theorem C2_claim (cs : List Char) (r o : List (List Char)) :
    (update_content cs r o).getLast? = some '\n' := by
  simp only [update_content]
  split
  next h => exact h
  next h => exact List.getLast?_concat _

/-- Claim C4 is false as stated: when a marker occurs twice the parse is not
order preserving — concatenating the five segments of this outline does not
reproduce it. -/
theorem C4_counterexample :
    joinLines (concatSegs (parse_summary_structure
        (splitLines "## M+M\n## Claude code stuff\n## M+M".data)))
      ≠ "## M+M\n## Claude code stuff\n## M+M".data := by
  decide

/-- Claim C4 (amended): for every input in which at most one line strips to
the M+M marker and at most one strips to the Claude marker, the structural
parse partitions the lines into five contiguous, order-preserving segments
and concatenating them reproduces the input byte for byte. -/
theorem C4_claim (cs : List Char)
    (h1 : countMM (splitLines cs) ≤ 1) (h2 : countClaude (splitLines cs) ≤ 1) :
    joinLines (concatSegs (parse_summary_structure (splitLines cs))) = cs := by
  rw [concatSegs_parse _ h1 h2, joinLines_splitLines]

/-- Claim C4 witness: the amended round trip evaluated on a concrete
outline. -/
theorem C4_witness :
    joinLines (concatSegs (parse_summary_structure
        (splitLines "# intro\n## M+M\nhello".data)))
      = "# intro\n## M+M\nhello".data :=
  C4_claim "# intro\n## M+M\nhello".data (by decide) (by decide)

/-- Claim C9: the display title is the stem with separators replaced by
spaces and Python word-level title-casing applied, with no acronym awareness:
`competitive-landscape.md` gives `Competitive Landscape` and
`mvp_feature_spec.md` gives `Mvp Feature Spec` (not `MVP ...`). -/
theorem C9_claim :
    filename_to_title "competitive-landscape.md".data
        = "Competitive Landscape".data
      ∧ filename_to_title "mvp_feature_spec.md".data = "Mvp Feature Spec".data
      ∧ ∀ pth, filename_to_title pth
          = pyTitle ((pathStem pth).map
              (fun c => if c = '-' ∨ c = '_' then ' ' else c)) :=
  ⟨by decide, by decide, fun _ => rfl⟩

/-- Claim C10: the before-A bucket is exactly the prefix up to the first M+M
marker line (so a Claude marker with no earlier M+M marker lands there, along
with everything until the first M+M marker), and if every Claude marker line
occurs before every M+M marker line the Claude bucket stays empty: a Claude
segment is only opened by a Claude marker that follows the M+M marker. -/
theorem C10_claim (lines : List (List Char)) :
    (parse_summary_structure lines).before_mm
        = lines.takeWhile (fun l => !decide (pyStrip l = SECTION_MM))
      ∧ ∀ pre post, lines = pre ++ post →
          (∀ l ∈ pre, pyStrip l ≠ SECTION_MM) →
          (∀ l ∈ post, pyStrip l ≠ SECTION_CLAUDE) →
          (parse_summary_structure lines).claude_section = [] := by
  refine ⟨before_mm_parseFrom lines false, ?_⟩
  intro pre post hsp hpre hpost
  rw [hsp]
  exact claude_parseFrom_B_before_A pre post false hpre hpost

/-- Claim C10 witness: a Claude marker line ahead of any M+M marker stays in
the before-A bucket and opens no Claude segment. -/
theorem C10_witness :
    (parse_summary_structure ["## Claude code stuff".data, "x".data]).before_mm
        = (["## Claude code stuff".data, "x".data] : List (List Char)).takeWhile
            (fun l => !decide (pyStrip l = SECTION_MM))
      ∧ (parse_summary_structure
          ["## Claude code stuff".data, "x".data]).claude_section = [] :=
  ⟨(C10_claim ["## Claude code stuff".data, "x".data]).1,
    (C10_claim ["## Claude code stuff".data, "x".data]).2
      ["## Claude code stuff".data, "x".data] [] (by simp) (by decide) (by simp)⟩

/-- Claim C3 is false as stated: the code suppresses the synthetic header by
substring containment, not line equality.  Here no M+M line equals the
literal `  * [Research]` header line, a new research file exists, and yet no
header is emitted (a line merely contains `* [Research]`). -/
theorem C3_counterexample :
    researchHeaderLine ∉ insert_research_output_sections
        ⟨[], ["## M+M".data, "see * [Research] notes".data], [], [], []⟩
        ["research/a.md".data] [] []
      ∧ (∀ l ∈ (⟨[], ["## M+M".data, "see * [Research] notes".data], [], [], []⟩
            : SummaryStructure).mm_section, l ≠ researchHeaderLine)
      ∧ ["research/a.md".data].filter
          (fun f => !decide (f ∈ ([] : List (List Char)))) ≠ [] := by
  refine ⟨by decide, by decide, by decide⟩

/-- Claim C3 (amended): the synthetic Research group header is emitted iff
there are new research files and no M+M line CONTAINS the substring
`* [Research]`, and symmetrically the Output group header is emitted iff
there are new output files and no M+M line contains `* [Output]`; each new
path from either directory yields exactly one rendered entry in the output;
and the output is the original segments with the Research block, then the
Output block, spliced in before the first later `##` line of the M+M bucket
(at its end when there is none). -/
theorem C3_claim (st : SummaryStructure) (r o e : List (List Char)) :
    (∀ f, f ∈ r → f ∉ e → r.count f = 1 →
        (∀ g ∈ r, create_entry g 2 = create_entry f 2 → g = f) →
        (∀ g ∈ o, create_entry g 2 ≠ create_entry f 2) →
        create_entry f 2 ∉ concatSegs st →
        (insert_research_output_sections st r o e).count (create_entry f 2) = 1)
      ∧ (∀ f, f ∈ o → f ∉ e → o.count f = 1 →
          (∀ g ∈ o, create_entry g 2 = create_entry f 2 → g = f) →
          (∀ g ∈ r, create_entry g 2 ≠ create_entry f 2) →
          create_entry f 2 ∉ concatSegs st →
          (insert_research_output_sections st r o e).count (create_entry f 2) = 1)
      ∧ (researchHeaderLine ∈ research_part st.mm_section r e ↔
          (r.filter (fun g => !decide (g ∈ e)) ≠ []
            ∧ ¬(st.mm_section.any (fun l => hasSub "* [Research]".data l) = true)))
      ∧ (outputHeaderLine ∈ output_part st.mm_section o e ↔
          (o.filter (fun g => !decide (g ∈ e)) ≠ []
            ∧ ¬(st.mm_section.any (fun l => hasSub "* [Output]".data l) = true)))
      ∧ insert_research_output_sections st r o e
          = st.before_mm ++ st.mm_section.take (insertion_index st.mm_section)
            ++ research_part st.mm_section r e ++ output_part st.mm_section o e
            ++ st.mm_section.drop (insertion_index st.mm_section)
            ++ st.between_sections ++ st.claude_section ++ st.after_claude := by
  have base : ∀ (f : List Char), create_entry f 2 ∉ concatSegs st →
      (insert_research_output_sections st r o e).count (create_entry f 2)
        = (research_part st.mm_section r e).count (create_entry f 2)
          + (output_part st.mm_section o e).count (create_entry f 2) := by
    intro f horig
    simp only [concatSegs, List.mem_append] at horig
    push_neg at horig
    obtain ⟨⟨⟨⟨hb, hm⟩, hbet⟩, hcl⟩, haf⟩ := horig
    rw [insert_eq]
    simp only [List.count_append]
    have hz : ∀ (seg : List (List Char)), create_entry f 2 ∉ seg →
        seg.count (create_entry f 2) = 0 := fun seg h => List.count_eq_zero.mpr h
    have htd : (st.mm_section.take (insertion_index st.mm_section)).count
          (create_entry f 2)
        + (st.mm_section.drop (insertion_index st.mm_section)).count
          (create_entry f 2) = 0 := by
      rw [← List.count_append, List.take_append_drop]
      exact hz _ hm
    rw [hz _ hb, hz _ hbet, hz _ hcl, hz _ haf]
    omega
  refine ⟨?_, ?_, mem_header_research_part st.mm_section r e,
    mem_header_output_part st.mm_section o e, insert_eq st r o e⟩
  · intro f _hf hfe hcnt hinjr hinjo horig
    rw [base f horig, count_research_part st.mm_section r e f hinjr,
      count_output_part_zero st.mm_section o e f hinjo,
      List.count_filter (by simp [hfe]), hcnt]
  · intro f _hf hfe hcnt hinjo hinjr horig
    rw [base f horig, count_research_part_zero st.mm_section r e f hinjr,
      count_output_part st.mm_section o e f hinjo,
      List.count_filter (by simp [hfe]), hcnt]

/-- Claim C3 witness: the amended statement evaluated on a concrete merge
with one new research file and one new output file, one entry each. -/
theorem C3_witness :
    (insert_research_output_sections ⟨[], ["## M+M".data], [], [], []⟩
        ["research/a.md".data] ["output/b.md".data] []).count
        (create_entry "research/a.md".data 2) = 1
      ∧ (insert_research_output_sections ⟨[], ["## M+M".data], [], [], []⟩
          ["research/a.md".data] ["output/b.md".data] []).count
          (create_entry "output/b.md".data 2) = 1 :=
  ⟨(C3_claim ⟨[], ["## M+M".data], [], [], []⟩ ["research/a.md".data]
      ["output/b.md".data] []).1 "research/a.md".data (by decide) (by decide)
      (by decide) (by decide) (by decide) (by decide),
    (C3_claim ⟨[], ["## M+M".data], [], [], []⟩ ["research/a.md".data]
      ["output/b.md".data] []).2.1 "output/b.md".data (by decide) (by decide)
      (by decide) (by decide) (by decide) (by decide)⟩

/-- Claim C6 is false as stated: extraction is not the set of ALL link paths.
In `[a[b](x.md)](y.md)` the path `y.md` occurs as the path component of a
markdown-style link, but the leftmost non-greedy match consumes `[a[b](x.md)`
and `y.md` is never extracted. -/
theorem C6_counterexample :
    SpecLinkPath "[a[b](x.md)](y.md)".data "y.md".data
      ∧ "y.md".data ∉ extract_existing_links "[a[b](x.md)](y.md)".data := by
  constructor
  · exact ⟨[], "a[b](x.md)".data, [], by decide, by decide, by decide,
      ⟨['y'], by decide⟩⟩
  · decide

/-- Claim C6 (amended): every extracted string is the path component of some
markdown-style link ending in `.md` (soundness; completeness fails for
overlapping links), the extracted set over a joined file is the union of the
per-line extractions — so membership is insensitive to where and how often a
link occurs — and a path in the existing-link index is never among the new
files the merge renders. -/
theorem C6_claim (ls : List (List Char)) (content p : List Char)
    (r e : List (List Char)) :
    (p ∈ extract_existing_links (joinLines ls)
        ↔ ∃ l ∈ ls, p ∈ extract_existing_links l)
      ∧ (p ∈ extract_existing_links content → SpecLinkPath content p)
      ∧ (p ∈ e → p ∉ r.filter (fun f => !decide (f ∈ e))) := by
  refine ⟨?_, extract_sound content p, ?_⟩
  · rw [extract_joinLines]
    exact List.mem_flatMap
  · intro hpe hmem
    have := (List.mem_filter.mp hmem).2
    simp [hpe] at this

/-- Claim C6 witness: soundness and duplicate suppression evaluated on a
concrete line. -/
theorem C6_witness :
    SpecLinkPath "see [A](research/a.md)".data "research/a.md".data
      ∧ "research/a.md".data ∉
          (["research/a.md".data] : List (List Char)).filter
            (fun f => !decide (f ∈ (["research/a.md".data] : List (List Char)))) :=
  ⟨(C6_claim [] "see [A](research/a.md)".data "research/a.md".data [] []).2.1
      (by decide),
    (C6_claim [] "see [A](research/a.md)".data "research/a.md".data
        ["research/a.md".data] ["research/a.md".data]).2.2 (by decide)⟩

/-! ### Sortedness of discovery -/

theorem strLe_trans :
    ∀ (a b c : List Char), strLe a b = true → strLe b c = true → strLe a c = true := by
  intro a
  induction a with
  | nil => intro b c _ _; rfl
  | cons x as ih =>
    intro b c hab hbc
    cases b with
    | nil => simp [strLe] at hab
    | cons y bs =>
      cases c with
      | nil => simp [strLe] at hbc
      | cons z cs =>
        rw [strLe] at hab hbc ⊢
        by_cases hxy : x = y
        · subst hxy
          rw [if_pos rfl] at hab
          by_cases hyz : x = z
          · subst hyz
            rw [if_pos rfl] at hbc ⊢
            exact ih bs cs hab hbc
          · rw [if_neg hyz] at hbc ⊢
            exact hbc
        · rw [if_neg hxy] at hab
          by_cases hyz : y = z
          · subst hyz
            rw [if_neg hxy]
            exact hab
          · rw [if_neg hyz] at hbc
            have hxz : x < z := lt_trans (of_decide_eq_true hab)
              (of_decide_eq_true hbc)
            rw [if_neg (ne_of_lt hxz), decide_eq_true_eq]
            exact hxz

theorem strLe_total : ∀ (a b : List Char), (strLe a b || strLe b a) = true := by
  intro a
  induction a with
  | nil => intro b; rfl
  | cons x as ih =>
    intro b
    cases b with
    | nil => rfl
    | cons y bs =>
      rw [strLe, strLe]
      by_cases hxy : x = y
      · subst hxy
        rw [if_pos rfl, if_pos rfl]
        exact ih bs
      · rw [if_neg hxy, if_neg (fun hcon => hxy hcon.symm)]
        rcases lt_or_gt_of_ne hxy with hlt | hgt
        · simp [hlt]
        · simp [hgt]

/-- Claim C8: discovery of a missing directory yields `[]`; otherwise the
result is sorted lexicographically ascending and holds exactly the
`dirRel/name` paths of the entries matching `*.md`, with no other effect (the
function is pure). -/
theorem C8_claim (names : List (List Char)) (dirRel : List Char) :
    find_markdown_files none dirRel = []
      ∧ List.Pairwise (fun a b => strLe a b = true)
          (find_markdown_files (some names) dirRel)
      ∧ ∀ p, p ∈ find_markdown_files (some names) dirRel ↔
          ∃ n ∈ names, ".md".data.isSuffixOf n ∧ p = dirRel ++ '/' :: n := by
  refine ⟨rfl, ?_, ?_⟩
  · exact List.sorted_mergeSort strLe_trans strLe_total _
  · intro p
    unfold find_markdown_files
    rw [List.mem_mergeSort, List.mem_map]
    constructor
    · rintro ⟨n, hn, hp⟩
      have := List.mem_filter.mp hn
      exact ⟨n, this.1, this.2, hp.symm⟩
    · rintro ⟨n, hn, hmd, hp⟩
      exact ⟨n, List.mem_filter.mpr ⟨hn, hmd⟩, hp.symm⟩

/-! ### Idempotence of the full update -/

theorem mem_insert_of_mem_concatSegs (st : SummaryStructure)
    (r o e : List (List Char)) (l : List Char) (h : l ∈ concatSegs st) :
    l ∈ insert_research_output_sections st r o e := by
  rw [insert_eq]
  have hmm : l ∈ st.mm_section →
      l ∈ st.mm_section.take (insertion_index st.mm_section)
        ∨ l ∈ st.mm_section.drop (insertion_index st.mm_section) := by
    intro hm
    rw [← List.take_append_drop (insertion_index st.mm_section) st.mm_section]
      at hm
    exact List.mem_append.mp hm
  simp only [concatSegs, List.mem_append] at h ⊢
  tauto

/-- Every path in the written content's extraction: a path already extracted
from the old content is re-extracted (its line survives into some segment),
and a path whose fresh entry was rendered is extracted from that entry line
(the hypothesis). -/
theorem extract_update_content (cs : List Char) (r o : List (List Char))
    (f : List Char)
    (hentry : f ∈ extract_existing_links (create_entry f 2))
    (hf : f ∈ r ++ o) :
    f ∈ extract_existing_links (update_content cs r o) := by
  set e := extract_existing_links cs with he
  set result := insert_research_output_sections
    (parse_summary_structure (splitLines cs)) r o e with hres
  have hstep : f ∈ extract_existing_links (joinLines result) →
      f ∈ extract_existing_links (update_content cs r o) := by
    intro hj
    simp only [update_content]
    split
    · exact hj
    · have : (joinLines result ++ ['\n'])
          = joinLines result ++ '\n' :: [] := rfl
      rw [this, extract_join]
      exact List.mem_append.mpr (Or.inl hj)
  apply hstep
  rw [extract_joinLines]
  by_cases hfe : f ∈ e
  · -- the path was already linked: its line survives in the output
    rw [he, ← joinLines_splitLines cs, extract_joinLines] at hfe
    obtain ⟨line, hline, hfl⟩ := List.mem_flatMap.mp hfe
    refine List.mem_flatMap.mpr ⟨line, ?_, hfl⟩
    exact mem_insert_of_mem_concatSegs _ r o e line
      (mem_concatSegs_parseFrom (splitLines cs) .before_mm false false line hline)
  · -- the path is new: its rendered entry is in the output
    refine List.mem_flatMap.mpr ⟨create_entry f 2, ?_, hentry⟩
    rcases List.mem_append.mp hf with hfr | hfo
    · rw [hres, insert_eq]
      have hin := entry_mem_research_part
        (parse_summary_structure (splitLines cs)).mm_section r e f hfr hfe
      simp only [List.mem_append]
      exact Or.inl (Or.inl (Or.inl (Or.inl (Or.inl (Or.inr hin)))))
    · rw [hres, insert_eq]
      have hin := entry_mem_output_part
        (parse_summary_structure (splitLines cs)).mm_section o e f hfo hfe
      simp only [List.mem_append]
      exact Or.inl (Or.inl (Or.inl (Or.inl (Or.inr hin))))

/-- Claim C5 is false as stated: a legal filename containing `.md)` defeats
re-extraction, so the second run re-adds the entry and the outputs differ. -/
theorem C5_counterexample :
    update_content (update_content "# S\n## M+M\n".data
          ["research/a.md)b.md".data] []) ["research/a.md)b.md".data] []
        ≠ update_content "# S\n## M+M\n".data ["research/a.md)b.md".data] []
      ∧ "research/a.md)b.md".data ∉ extract_existing_links
          (update_content "# S\n## M+M\n".data ["research/a.md)b.md".data] []) := by
  constructor
  · decide
  · decide

/-- Claim C5 (amended): provided every discovered path is recaptured by the
link pattern from its own rendered entry line (true for ordinary names, false
e.g. when the name contains `.md)`), a second run over the first run's output
finds no new research or output files, so it stops before writing and the
outline is unchanged. -/
theorem C5_claim (cs : List Char) (r o : List (List Char))
    (h : ∀ f ∈ r ++ o, f ∈ extract_existing_links (create_entry f 2)) :
    r.filter (fun f =>
        !decide (f ∈ extract_existing_links (update_content cs r o))) = []
      ∧ o.filter (fun f =>
          !decide (f ∈ extract_existing_links (update_content cs r o))) = [] := by
  constructor
  · rw [List.filter_eq_nil_iff]
    intro f hfr
    have := extract_update_content cs r o f
      (h f (List.mem_append.mpr (Or.inl hfr))) (List.mem_append.mpr (Or.inl hfr))
    simp [this]
  · rw [List.filter_eq_nil_iff]
    intro f hfo
    have := extract_update_content cs r o f
      (h f (List.mem_append.mpr (Or.inr hfo))) (List.mem_append.mpr (Or.inr hfo))
    simp [this]

/-- Claim C5 witness: idempotence on a concrete run with one well-behaved
research file. -/
theorem C5_witness :
    (["research/a.md".data] : List (List Char)).filter (fun f =>
        !decide (f ∈ extract_existing_links
          (update_content "# S\n## M+M\n".data ["research/a.md".data] []))) = []
      ∧ ([] : List (List Char)).filter (fun f =>
          !decide (f ∈ extract_existing_links
            (update_content "# S\n## M+M\n".data ["research/a.md".data] []))) = [] :=
  C5_claim "# S\n## M+M\n".data ["research/a.md".data] [] (by decide)

/-- Claim C7: a missing outline file fails with exit 1 and touches nothing; a
failing temp-write stage leaves the outline untouched, removes the temp file
and exits 1 (the rename never happens); a successful run exits 0; and the two
nothing-to-do cases return success, exit 0 and leave the filesystem
unchanged. -/
theorem C7_claim (fs : FS) (r o : List (List Char)) (w : Bool) :
    (fs.summary = none →
        update_summary fs r o w = (false, fs) ∧ main_exit fs r o w = 1)
      ∧ (∀ content, fs.summary = some content →
          ¬(r.filter (fun f =>
                !decide (f ∈ extract_existing_links content)) = []
              ∧ o.filter (fun f =>
                !decide (f ∈ extract_existing_links content)) = []) →
          (update_summary fs r o false).2.summary = some content
            ∧ (update_summary fs r o false).2.temp = none
            ∧ (update_summary fs r o false).1 = false
            ∧ main_exit fs r o false = 1)
      ∧ (∀ content, fs.summary = some content →
          ((r = [] ∧ o = [])
            ∨ (r.filter (fun f =>
                  !decide (f ∈ extract_existing_links content)) = []
                ∧ o.filter (fun f =>
                  !decide (f ∈ extract_existing_links content)) = [])) →
          update_summary fs r o w = (true, fs) ∧ main_exit fs r o w = 0)
      ∧ (fs.summary ≠ none → w = true → main_exit fs r o w = 0) := by
  refine ⟨?_, ?_, ?_, ?_⟩
  · intro hnone
    simp only [main_exit, update_summary, hnone]
    simp
  · intro content hsome hnew
    have hro : ¬(r = [] ∧ o = []) := by
      rintro ⟨hr, ho⟩
      exact hnew (by simp [hr, ho])
    simp only [main_exit, update_summary, hsome]
    rw [if_neg hro, if_neg hnew]
    simp
  · intro content hsome hcase
    simp only [main_exit, update_summary, hsome]
    rcases hcase with ⟨hr, ho⟩ | hfil
    · subst hr
      subst ho
      simp
    · by_cases hro : r = [] ∧ o = []
      · rw [if_pos hro]
        simp
      · rw [if_neg hro, if_pos hfil]
        simp
  · intro hsome hw
    subst hw
    cases hs : fs.summary with
    | none => exact absurd hs hsome
    | some content =>
      simp only [main_exit, update_summary, hs]
      by_cases hro : r = [] ∧ o = []
      · rw [if_pos hro]
        simp
      · rw [if_neg hro]
        by_cases hfil : r.filter (fun f =>
              !decide (f ∈ extract_existing_links content)) = []
            ∧ o.filter (fun f =>
              !decide (f ∈ extract_existing_links content)) = []
        · rw [if_pos hfil]
          simp
        · rw [if_neg hfil]
          simp

/-- Claim C7 witness: the error and success paths evaluated on concrete
filesystems — missing outline (exit 1, untouched), failing temp write (exit
1, outline intact, temp removed), and an empty-directories no-op (exit 0,
filesystem unchanged). -/
theorem C7_witness :
    (update_summary ⟨none, none, none⟩ ["research/a.md".data] [] true
          = (false, ⟨none, none, none⟩)
        ∧ main_exit ⟨none, none, none⟩ ["research/a.md".data] [] true = 1)
      ∧ ((update_summary ⟨some "## M+M\n".data, none, some "junk".data⟩
            ["research/a.md".data] [] false).2.summary = some "## M+M\n".data
          ∧ (update_summary ⟨some "## M+M\n".data, none, some "junk".data⟩
              ["research/a.md".data] [] false).2.temp = none
          ∧ (update_summary ⟨some "## M+M\n".data, none, some "junk".data⟩
              ["research/a.md".data] [] false).1 = false
          ∧ main_exit ⟨some "## M+M\n".data, none, some "junk".data⟩
              ["research/a.md".data] [] false = 1)
      ∧ (update_summary ⟨some "## M+M\n".data, none, none⟩ [] [] true
            = (true, ⟨some "## M+M\n".data, none, none⟩)
          ∧ main_exit ⟨some "## M+M\n".data, none, none⟩ [] [] true = 0) :=
  ⟨(C7_claim ⟨none, none, none⟩ ["research/a.md".data] [] true).1 rfl,
    (C7_claim ⟨some "## M+M\n".data, none, some "junk".data⟩
        ["research/a.md".data] [] false).2.1 "## M+M\n".data rfl (by decide),
    (C7_claim ⟨some "## M+M\n".data, none, none⟩ [] [] true).2.2.1
      "## M+M\n".data rfl (Or.inl ⟨rfl, rfl⟩)⟩
